import Mathlib

/-!
Verification development for the barrelLab acoustic core.

The embedding models, over exact rationals:
  * `backend/physics.py`   — `PhysicsEngine.compute_impedance_curve` and
    `PhysicsEngine.find_peaks` (the latter including the semantics of
    `scipy.signal.find_peaks` with `height` and `distance` filtering, which
    the source delegates to);
  * `backend/gpu/gpu_compute.py` — `gpu_accelerated_impedance` with its
    GPU-availability / GPU-failure fallback;
  * `ai_assistant/ai_designer.py` — the optimizer page `render`, its
    `objective_function`, and the candidate-profile construction.

Floating-point transcendentals (π, sqrt, cosh, sinh on complex values) are
abstracted into a `NumKernel` parameter: every structural theorem below is
proved for an arbitrary kernel, and closed instances use an explicitly
arbitrary `someKernel`.  All array code in the source is elementwise over the
frequency axis, so the vectorized numpy computation is embedded per frequency
and mapped over the frequency grid.
-/

namespace BarrelLab

/-- Complex numbers with exact rational components, standing for the
`complex128` values flowing through the transfer-matrix recursion. -/
structure Cx where
  re : ℚ
  im : ℚ
deriving DecidableEq, Repr

instance : Add Cx := ⟨fun a b => ⟨a.re + b.re, a.im + b.im⟩⟩

instance : Mul Cx := ⟨fun a b => ⟨a.re * b.re - a.im * b.im, a.re * b.im + a.im * b.re⟩⟩

/-- Multiplication of a complex value by a real (rational) scalar. -/
def Cx.smul (q : ℚ) (a : Cx) : Cx := ⟨q * a.re, q * a.im⟩

/-- Division of a complex value by a real (rational) scalar. -/
def Cx.divQ (a : Cx) (q : ℚ) : Cx := ⟨a.re / q, a.im / q⟩

/-- Complex division `a / b`. -/
def Cx.div (a b : Cx) : Cx :=
  let d := b.re ^ 2 + b.im ^ 2
  ⟨(a.re * b.re + a.im * b.im) / d, (a.im * b.re - a.re * b.im) / d⟩

/-- The complex unit `1`, the initial volume flow `U = 1` at the open end. -/
def Cx.one : Cx := ⟨1, 0⟩

/-- The transcendental operations the engine takes from numpy/cupy: π, the
real square root, and complex cosh/sinh.  The engine's control flow, array
shapes and rational arithmetic do not depend on these, so theorems quantify
over the kernel. -/
structure NumKernel where
  piQ : ℚ
  sqrtQ : ℚ → ℚ
  coshC : Cx → Cx
  sinhC : Cx → Cx

/-- An arbitrary concrete kernel, used only to state closed corollaries of
facts that hold for every kernel. -/
def someKernel : NumKernel :=
  ⟨355 / 113, fun _ => 0, fun _ => ⟨1, 0⟩, fun _ => ⟨0, 0⟩⟩

/-- `numpy.arange start stop step` over exact rationals: the arithmetic
sequence `start + i*step` of length `⌈(stop - start)/step⌉` (clamped at 0). -/
def arangeQ (start stop step : ℚ) : List ℚ :=
  (List.range (⌈(stop - start) / step⌉).toNat).map fun i : ℕ => start + (i : ℚ) * step

/-- Strictly increasing `x` positions along a profile. -/
def strictIncX : List (ℚ × ℚ) → Bool
  | [] => true
  | [_] => true
  | a :: b :: t => decide (a.1 < b.1) && strictIncX (b :: t)

/-- The profile invariant stated by the spec: at least two control points,
strictly increasing `x` positions, all radii positive. -/
def validProfile (p : List (ℚ × ℚ)) : Prop :=
  2 ≤ p.length ∧ (∀ pt ∈ p, 0 < pt.2) ∧ strictIncX p = true

instance validProfile.decidable (p : List (ℚ × ℚ)) : Decidable (validProfile p) :=
  inferInstanceAs (Decidable
    (2 ≤ p.length ∧ (∀ pt ∈ p, 0 < pt.2) ∧ strictIncX p = true))

/-- One backward transfer-matrix segment step (`physics.py` lines 112-134):
given the running state `(P, U)` at the segment's downstream end and the
segment's two control points (already in metres), advance to its upstream
end.  `rho`, `c`, `k` and `f` are the per-call constants of the enclosing
loop body. -/
def segmentStep (K : NumKernel) (rho c_sound k f : ℚ) (PU : Cx × Cx)
    (seg : (ℚ × ℚ) × (ℚ × ℚ)) : Cx × Cx :=
  let length := seg.2.1 - seg.1.1
  let r_avg := (seg.2.2 + seg.1.2) / 2
  let area := K.piQ * r_avg ^ 2
  let Z_c := rho * c_sound / area
  let alpha := 3 / 100000 * K.sqrtQ f / r_avg
  let gammaL : Cx := ⟨alpha * length, k * length⟩
  let cosh_gL := K.coshC gammaL
  let sinh_gL := K.sinhC gammaL
  (PU.1 * cosh_gL + Cx.smul Z_c (PU.2 * sinh_gL),
   PU.1 * Cx.divQ sinh_gL Z_c + PU.2 * cosh_gL)

/-- The impedance magnitude `|Z_in|` at one frequency sample `f`
(`physics.py` lines 57-137, which are elementwise over the frequency axis):
temperature-adjusted constants, radiation load at the open end, backward
fold over the segments, then `|P/U|`. -/
def zinMag (K : NumKernel) (bore_profile : List (ℚ × ℚ)) (temperature f : ℚ) : ℚ :=
  let c_sound := 3313 / 10 + 303 / 500 * temperature
  let rho := 12041 / 10000 * (29315 / 100 / (27315 / 100 + temperature))
  let omega := 2 * K.piQ * f
  let k := omega / c_sound
  let pts := bore_profile.map fun p => (p.1 / 1000, p.2 / 1000)
  let r_exit := ((pts.getLast?).map Prod.snd).getD 0
  let area_exit := K.piQ * r_exit ^ 2
  let z0_exit := rho * c_sound / area_exit
  let ka := k * r_exit
  let Z_L : Cx := Cx.smul z0_exit ⟨1 / 4 * ka ^ 2, 6133 / 10000 * ka⟩
  let segs := pts.zip pts.tail
  let PU := segs.reverse.foldl (segmentStep K rho c_sound k f) (Z_L, Cx.one)
  let Z_in := Cx.div PU.1 PU.2
  K.sqrtQ (Z_in.re ^ 2 + Z_in.im ^ 2)

/-- `PhysicsEngine.compute_impedance_curve` (`physics.py` lines 40-142).
`use_gpu` mirrors the backend flag fixed at engine construction: on the GPU
branch the source copies the device arrays to host (`.get()`), which is the
identity on values.  No validation of the profile or the window is performed
by the source, and none is modelled. -/
def compute_impedance_curve (K : NumKernel) (use_gpu : Bool)
    (bore_profile : List (ℚ × ℚ)) (freq_range : ℚ × ℚ) (freq_step temperature : ℚ) :
    List ℚ × List ℚ :=
  let freqs := arangeQ freq_range.1 freq_range.2 freq_step
  let mags := freqs.map (zinMag K bore_profile temperature)
  if use_gpu then (freqs, mags) else (freqs, mags)

/-- The GPU branch of `gpu_accelerated_impedance` (`gpu_compute.py` lines
27-37): elementwise product of the two arrays, then the scalar sum. -/
def gpuPathImpedance (lengths radii : List ℚ) : ℚ :=
  (List.zipWith (fun a b => a * b) lengths radii).sum

/-- The CPU fallback branch of `gpu_accelerated_impedance` (`gpu_compute.py`
lines 39-42): the same elementwise product and sum, via numpy. -/
def cpuPathImpedance (lengths radii : List ℚ) : ℚ :=
  (List.zipWith (fun a b => a * b) lengths radii).sum

/-- `gpu_accelerated_impedance` (`gpu_compute.py` lines 23-42).  `hasGPU`
models `HAS_GPU and cp`; `gpuRaises` models an exception thrown inside the
GPU block, which the source catches and answers by falling through to the
CPU path. -/
def gpu_accelerated_impedance (hasGPU gpuRaises : Bool) (lengths radii : List ℚ) : ℚ :=
  if hasGPU && !gpuRaises then gpuPathImpedance lengths radii
  else cpuPathImpedance lengths radii

/-- Index access into `arangeQ`. -/
theorem arangeQ_getD (start stop step : ℚ) (i : ℕ)
    (hi : i < (⌈(stop - start) / step⌉).toNat) :
    (arangeQ start stop step).getD i 0 = start + (i : ℚ) * step := by
  unfold arangeQ
  rw [List.getD_eq_getElem?_getD, List.getElem?_map, List.getElem?_range hi]
  rfl

/-- Length of `arangeQ`. -/
theorem arangeQ_length (start stop step : ℚ) :
    (arangeQ start stop step).length = (⌈(stop - start) / step⌉).toNat := by
  unfold arangeQ
  rw [List.length_map, List.length_range]

/-- Unfolding of `compute_impedance_curve`: under either backend flag the
result is the frequency grid paired with the per-frequency magnitudes. -/
theorem compute_impedance_curve_eq (K : NumKernel) (g : Bool) (p : List (ℚ × ℚ))
    (freq_range : ℚ × ℚ) (freq_step temperature : ℚ) :
    compute_impedance_curve K g p freq_range freq_step temperature =
      (arangeQ freq_range.1 freq_range.2 freq_step,
       (arangeQ freq_range.1 freq_range.2 freq_step).map (zinMag K p temperature)) := by
  unfold compute_impedance_curve
  cases g <;> rfl

/-- C5: for every valid profile and every window with `f_min < f_max` and
`Δf > 0`, `compute_impedance_curve` returns two parallel arrays of equal
length, that length is `⌈(f_max − f_min)/Δf⌉`, and the frequencies are the
arithmetic sequence starting at `f_min` with step `Δf`. -/
theorem compute_impedance_grid (K : NumKernel) (g : Bool) (p : List (ℚ × ℚ))
    (fmin fmax step temp : ℚ) (hp : validProfile p) (hr : fmin < fmax) (hs : 0 < step) :
    (compute_impedance_curve K g p (fmin, fmax) step temp).1.length =
      (compute_impedance_curve K g p (fmin, fmax) step temp).2.length ∧
    (compute_impedance_curve K g p (fmin, fmax) step temp).1.length =
      (⌈(fmax - fmin) / step⌉).toNat ∧
    ∀ i < (⌈(fmax - fmin) / step⌉).toNat,
      (compute_impedance_curve K g p (fmin, fmax) step temp).1.getD i 0 =
        fmin + (i : ℚ) * step := by
  rw [compute_impedance_curve_eq]
  exact ⟨(List.length_map _ _).symm, arangeQ_length fmin fmax step,
    fun i hi => arangeQ_getD fmin fmax step i hi⟩

/-- C5 witness: the grid facts at a concrete valid profile and window. -/
theorem compute_impedance_grid_witness :
    validProfile [(0, 7), (60, 8)] ∧ (100 : ℚ) < 110 ∧ (0 : ℚ) < 2 ∧
    ((compute_impedance_curve someKernel false [(0, 7), (60, 8)] (100, 110) 2 20).1.length =
      (compute_impedance_curve someKernel false [(0, 7), (60, 8)] (100, 110) 2 20).2.length ∧
    (compute_impedance_curve someKernel false [(0, 7), (60, 8)] (100, 110) 2 20).1.length =
      (⌈((110 : ℚ) - 100) / 2⌉).toNat ∧
    ∀ i < (⌈((110 : ℚ) - 100) / 2⌉).toNat,
      (compute_impedance_curve someKernel false [(0, 7), (60, 8)] (100, 110) 2 20).1.getD i 0 =
        100 + (i : ℚ) * 2) :=
  ⟨by decide, by norm_num, by norm_num,
    compute_impedance_grid someKernel false [(0, 7), (60, 8)] 100 110 2 20
      (by decide) (by norm_num) (by norm_num)⟩

/-- C8: the impedance computation is a pure function of profile, window,
step and temperature; in particular its result does not depend on which
backend flag the engine was constructed with, and two calls with identical
inputs return identical outputs. -/
theorem compute_impedance_pure (K : NumKernel) (g1 g2 : Bool) (p : List (ℚ × ℚ))
    (freq_range : ℚ × ℚ) (freq_step temperature : ℚ) :
    compute_impedance_curve K g1 p freq_range freq_step temperature =
      compute_impedance_curve K g2 p freq_range freq_step temperature := by
  unfold compute_impedance_curve
  cases g1 <;> cases g2 <;> rfl

/-- C7: whatever the availability flags, `gpu_accelerated_impedance` answers
with no error path, its value always equals the value of the pure CPU path,
and the GPU path computes exactly the same value as the CPU path (so the two
paths agree within any tolerance). -/
theorem gpu_fallback_equivalent (hasGPU gpuRaises : Bool) (lengths radii : List ℚ) :
    gpu_accelerated_impedance hasGPU gpuRaises lengths radii =
      cpuPathImpedance lengths radii ∧
    gpuPathImpedance lengths radii = cpuPathImpedance lengths radii := by
  constructor
  · unfold gpu_accelerated_impedance gpuPathImpedance cpuPathImpedance
    cases hasGPU <;> cases gpuRaises <;> rfl
  · rfl

/-- The dot product the spec-side reading of `gpu_accelerated_impedance`
describes: the sum over `i` of `lengths[i] * radii[i]`. -/
def dotProductSpec (lengths radii : List ℚ) : ℚ :=
  ∑ i ∈ Finset.range lengths.length, lengths.getD i 0 * radii.getD i 0

/-- Sum of an elementwise product of equal-length lists is the dot product. -/
theorem zipWith_mul_sum_eq_dot (lengths radii : List ℚ)
    (h : lengths.length = radii.length) :
    (List.zipWith (fun a b => a * b) lengths radii).sum = dotProductSpec lengths radii := by
  induction lengths generalizing radii with
  | nil => simp [dotProductSpec]
  | cons a l ih =>
    cases radii with
    | nil => simp at h
    | cons b r =>
      have hlen : l.length = r.length := by simpa using h
      simp only [List.zipWith_cons_cons, List.sum_cons, dotProductSpec, List.length_cons]
      rw [Finset.sum_range_succ' (fun i => (a :: l).getD i 0 * (b :: r).getD i 0)]
      simp only [List.getD_cons_succ, List.getD_cons_zero]
      rw [ih r hlen]
      unfold dotProductSpec
      ring

/-- C9: for equal-length inputs, `gpu_accelerated_impedance` returns the
single scalar `∑ i, lengths[i] * radii[i]` under every availability flag, and
the CPU fallback path returns exactly this same value. -/
theorem gpu_accelerated_impedance_dot (hasGPU gpuRaises : Bool)
    (lengths radii : List ℚ) (h : lengths.length = radii.length) :
    gpu_accelerated_impedance hasGPU gpuRaises lengths radii =
      dotProductSpec lengths radii ∧
    cpuPathImpedance lengths radii = dotProductSpec lengths radii := by
  have hcpu : cpuPathImpedance lengths radii = dotProductSpec lengths radii :=
    zipWith_mul_sum_eq_dot lengths radii h
  refine ⟨?_, hcpu⟩
  rw [(gpu_fallback_equivalent hasGPU gpuRaises lengths radii).1, hcpu]

/-- C9 witness: the dot-product fact at concrete equal-length inputs. -/
theorem gpu_accelerated_impedance_dot_witness :
    ([(2 : ℚ), 3, 4].length = [(5 : ℚ), 7, 11].length) ∧
    (gpu_accelerated_impedance true false [2, 3, 4] [5, 7, 11] =
      dotProductSpec [2, 3, 4] [5, 7, 11] ∧
    cpuPathImpedance [2, 3, 4] [5, 7, 11] = dotProductSpec [2, 3, 4] [5, 7, 11]) :=
  ⟨by decide, gpu_accelerated_impedance_dot true false [2, 3, 4] [5, 7, 11] (by decide)⟩

/-- The control-point indices the optimizer holds fixed
(`ai_designer.py` line 54): the first and the last point. -/
def fixed_indices (n : ℕ) : List ℕ := [0, n - 1]

/-- The free control-point indices (`ai_designer.py` line 55). -/
def optim_indices (n : ℕ) : List ℕ :=
  (List.range n).filter fun i => !((fixed_indices n).contains i)

/-- One assignment `candidate[idx] = (candidate[idx][0], r)` of the
candidate-construction loops (`ai_designer.py` lines 67-68 and 102-103). -/
def setRadius (acc : List (ℚ × ℚ)) (ir : ℕ × ℚ) : List (ℚ × ℚ) :=
  acc.set ir.1 ((acc.getD ir.1 (0, 0)).1, ir.2)

/-- The candidate-profile construction shared by `objective_function`
(`ai_designer.py` lines 66-68) and the post-optimization state update
(lines 101-103): copy the profile, then overwrite the radius at each free
index with the corresponding entry of `radii`, keeping its `x`. -/
def buildCandidate (profile : List (ℚ × ℚ)) (radii : List ℚ) : List (ℚ × ℚ) :=
  ((optim_indices profile.length).zip radii).foldl setRadius profile

/-- `numpy.argmax` on a rational list: index of the first occurrence of the
maximum (0 on the empty list, where numpy instead raises). -/
def argmaxAux (i_best : ℕ) (v_best : ℚ) (i : ℕ) : List ℚ → ℕ
  | [] => i_best
  | v :: t => if v_best < v then argmaxAux i v (i + 1) t else argmaxAux i_best v_best (i + 1) t

/-- `numpy.argmax` over the whole list. -/
def argmaxIdx : List ℚ → ℕ
  | [] => 0
  | v :: t => argmaxAux 0 v 1 t

/-- `objective_function` (`ai_designer.py` lines 64-81): build the candidate
profile, run the engine on the window `[0.8·target, 1.2·target]` with step 1
and default temperature 20 on the CPU backend, take the frequency of the
(first) magnitude argmax, and return the squared error to the target. -/
def objective_function (K : NumKernel) (current_profile : List (ℚ × ℚ)) (target_f : ℚ)
    (radii : List ℚ) : ℚ :=
  let candidate := buildCandidate current_profile radii
  let f_min := target_f * (4 / 5)
  let f_max := target_f * (6 / 5)
  let fz := compute_impedance_curve K false candidate (f_min, f_max) 1 20
  let f_peak := fz.1.getD (argmaxIdx fz.2) 0
  (f_peak - target_f) ^ 2

/-- The claim-side degenerate-window predicate: the magnitude array has no
interior global maximum (it is maximal only at a window edge, or has fewer
than three samples). -/
def noInteriorMaxB (Z : List ℚ) : Bool :=
  (List.range Z.length).all fun i =>
    !(decide (0 < i) && decide (i + 1 < Z.length) &&
      ((List.range Z.length).all fun j => decide (Z.getD j 0 ≤ Z.getD i 0)))

/-- The page-session state the optimizer page reads and writes. -/
structure SessionState where
  bore_profile : Option (List (ℚ × ℚ))
  target_freq : ℚ
deriving DecidableEq, Repr

/-- What `scipy.optimize.minimize` hands back, as consumed by `render`:
final parameters, success flag, message, and the number of objective
evaluations it performed. -/
structure MinimizeResult where
  x : List ℚ
  success : Bool
  message : String
  nfev : ℕ
deriving DecidableEq, Repr

/-- The optimizer page `render` (`ai_designer.py` lines 17-117), restricted
to its session-state and engine effects.  `minimizer` abstracts
`scipy.optimize.minimize` (theorems quantify over it); the second component
of the result counts calls into `compute_impedance_curve`, one per objective
evaluation, so on the optimize path it is the minimizer's evaluation count
and on every early-return path it is 0. -/
def render (minimizer : (List ℚ → ℚ) → List ℚ → MinimizeResult) (K : NumKernel)
    (physicsEngineAvailable buttonPressed : Bool) (st : SessionState) :
    SessionState × ℕ :=
  if !physicsEngineAvailable then (st, 0)
  else if !buttonPressed then (st, 0)
  else
    match st.bore_profile with
    | none => (st, 0)
    | some current_profile =>
      if current_profile.length < 3 then (st, 0)
      else
        let initial_radii :=
          (optim_indices current_profile.length).map fun i => (current_profile.getD i (0, 0)).2
        let res := minimizer (objective_function K current_profile st.target_freq) initial_radii
        if res.success || decide (res.message ≠ "") then
          (SessionState.mk (some (buildCandidate current_profile res.x)) st.target_freq,
           res.nfev)
        else (st, res.nfev)

/-- A trivial stand-in minimizer, used only to state closed instances of
facts that hold for every minimizer. -/
def trivMinimizer : (List ℚ → ℚ) → List ℚ → MinimizeResult := fun _ _ => ⟨[], false, "", 0⟩

/-- `setRadius` keeps the length. -/
theorem setRadius_length (acc : List (ℚ × ℚ)) (ir : ℕ × ℚ) :
    (setRadius acc ir).length = acc.length := List.length_set ..

/-- `setRadius` keeps every `x` position. -/
theorem setRadius_map_fst (acc : List (ℚ × ℚ)) (ir : ℕ × ℚ) :
    (setRadius acc ir).map Prod.fst = acc.map Prod.fst := by
  unfold setRadius
  apply List.ext_getElem?
  intro j
  rw [List.getElem?_map, List.getElem?_map, List.getElem?_set]
  by_cases hij : ir.1 = j
  · subst hij
    by_cases hlt : ir.1 < acc.length
    · rw [if_pos rfl, if_pos hlt, List.getD_eq_getElem?_getD, List.getElem?_eq_getElem hlt]
      rfl
    · rw [if_pos rfl, if_neg hlt, List.getElem?_eq_none (le_of_not_lt hlt)]
  · rw [if_neg hij]

/-- `setRadius` at an index other than `j` does not change entry `j`. -/
theorem setRadius_getElem?_ne (acc : List (ℚ × ℚ)) (ir : ℕ × ℚ) (j : ℕ) (h : ir.1 ≠ j) :
    (setRadius acc ir)[j]? = acc[j]? := by
  unfold setRadius
  rw [List.getElem?_set, if_neg h]

/-- Folding `setRadius` keeps every `x` position. -/
theorem foldl_setRadius_map_fst (pairs : List (ℕ × ℚ)) (acc : List (ℚ × ℚ)) :
    (pairs.foldl setRadius acc).map Prod.fst = acc.map Prod.fst := by
  induction pairs generalizing acc with
  | nil => rfl
  | cons p t ih => rw [List.foldl_cons, ih, setRadius_map_fst]

/-- Folding `setRadius` over pairs that avoid index `j` keeps entry `j`. -/
theorem foldl_setRadius_getElem?_ne (pairs : List (ℕ × ℚ)) (acc : List (ℚ × ℚ)) (j : ℕ)
    (h : ∀ pr ∈ pairs, pr.1 ≠ j) :
    (pairs.foldl setRadius acc)[j]? = acc[j]? := by
  induction pairs generalizing acc with
  | nil => rfl
  | cons p t ih =>
    rw [List.foldl_cons, ih _ fun pr hpr => h pr (List.mem_cons_of_mem p hpr),
      setRadius_getElem?_ne _ _ _ (h p (List.mem_cons_self p t))]

/-- A free index is neither the first nor the last control point. -/
theorem optim_indices_ne (n i : ℕ) (h : i ∈ optim_indices n) : i ≠ 0 ∧ i ≠ n - 1 := by
  unfold optim_indices fixed_indices at h
  rw [List.mem_filter] at h
  have h2 := h.2
  simp at h2
  exact h2

/-- C6: the candidate profile built during every objective evaluation and the
final profile installed by `render` are both produced by `buildCandidate`,
which returns a new list with every `x` position identical to the input
profile, the same length, and the first and last control points (the fixed
endpoint indices) entirely unchanged — in particular their radii equal the
input radii there.  The input profile is only read, never written. -/
theorem buildCandidate_frame (profile : List (ℚ × ℚ)) (radii : List ℚ) :
    (buildCandidate profile radii).map Prod.fst = profile.map Prod.fst ∧
    (buildCandidate profile radii).length = profile.length ∧
    (buildCandidate profile radii)[0]? = profile[0]? ∧
    (buildCandidate profile radii)[profile.length - 1]? = profile[profile.length - 1]? := by
  refine ⟨foldl_setRadius_map_fst _ _, ?_, ?_, ?_⟩
  · have h := congrArg List.length (foldl_setRadius_map_fst ((optim_indices profile.length).zip radii) profile)
    simpa [List.length_map] using h
  · apply foldl_setRadius_getElem?_ne
    intro pr hpr
    exact (optim_indices_ne _ _ (List.of_mem_zip hpr).1).1
  · apply foldl_setRadius_getElem?_ne
    intro pr hpr
    exact (optim_indices_ne _ _ (List.of_mem_zip hpr).1).2

/-- C10: with fewer than 3 control points stored, `render` returns before
constructing the engine or the minimizer call: the session state is returned
unchanged and the impedance engine is invoked zero times — for every
minimizer, kernel and flag configuration. -/
theorem render_short_profile (minimizer : (List ℚ → ℚ) → List ℚ → MinimizeResult)
    (K : NumKernel) (pa bp : Bool) (st : SessionState) (profile : List (ℚ × ℚ))
    (hprof : st.bore_profile = some profile) (hlen : profile.length < 3) :
    render minimizer K pa bp st = (st, 0) := by
  unfold render
  rw [hprof]
  cases pa <;> cases bp <;> simp [hlen]

/-- C10 witness: the early return at a concrete two-point profile. -/
theorem render_short_profile_witness :
    (SessionState.mk (some [(0, 7), (60, 8)]) 440).bore_profile = some [(0, 7), (60, 8)] ∧
    ([((0 : ℚ), (7 : ℚ)), (60, 8)]).length < 3 ∧
    render trivMinimizer someKernel true true (SessionState.mk (some [(0, 7), (60, 8)]) 440) =
      (SessionState.mk (some [(0, 7), (60, 8)]) 440, 0) :=
  ⟨rfl, by decide,
    render_short_profile trivMinimizer someKernel true true _ _ rfl (by decide)⟩

/-- `argmaxAux` stays below the running index plus the remaining length. -/
theorem argmaxAux_lt (t : List ℚ) : ∀ (i_best : ℕ) (v_best : ℚ) (i : ℕ), i_best < i →
    argmaxAux i_best v_best i t < i + t.length := by
  induction t with
  | nil =>
    intro ib vb i h
    unfold argmaxAux
    simpa using h
  | cons v t ih =>
    intro ib vb i h
    unfold argmaxAux
    by_cases hv : vb < v
    · rw [if_pos hv]
      have hrec := ih i v (i + 1) (Nat.lt_succ_self i)
      simp only [List.length_cons]
      omega
    · rw [if_neg hv]
      have hrec := ih ib vb (i + 1) (Nat.lt_succ_of_lt h)
      simp only [List.length_cons]
      omega


/-- `argmaxIdx` of a nonempty list is in bounds. -/
theorem argmaxIdx_lt (l : List ℚ) (h : l ≠ []) : argmaxIdx l < l.length := by
  cases l with
  | nil => exact absurd rfl h
  | cons v t =>
    unfold argmaxIdx
    have hb := argmaxAux_lt t 0 v 1 Nat.zero_lt_one
    simpa [Nat.add_comm] using hb

/-- The optimizer's restricted window `[0.8·t, 1.2·t]` with step 1 contains
at least one sample whenever the target is positive. -/
theorem objective_window_pos (t : ℚ) (ht : 0 < t) :
    0 < (⌈(t * (6 / 5) - t * (4 / 5)) / 1⌉).toNat := by
  have h1 : (0 : ℚ) < (t * (6 / 5) - t * (4 / 5)) / 1 := by
    have : t * (6 / 5) - t * (4 / 5) = t * (2 / 5) := by ring
    rw [this]
    positivity
  have h2 : 0 < ⌈(t * (6 / 5) - t * (4 / 5)) / 1⌉ := Int.ceil_pos.mpr h1
  omega

/-- C4 (amended): `objective_function` never returns a sentinel and never
guards the degenerate window: it unconditionally selects the argmax sample
of the window — an edge sample when the window has no interior maximum —
and returns its squared frequency error; the argmax index is always strictly
within the array bounds (the window is nonempty for a positive target), so
no out-of-range indexing occurs. -/
theorem objective_function_edge (K : NumKernel) (profile : List (ℚ × ℚ))
    (target_f : ℚ) (radii : List ℚ) (ht : 0 < target_f) :
    objective_function K profile target_f radii =
      ((compute_impedance_curve K false (buildCandidate profile radii)
          (target_f * (4 / 5), target_f * (6 / 5)) 1 20).1.getD
        (argmaxIdx (compute_impedance_curve K false (buildCandidate profile radii)
          (target_f * (4 / 5), target_f * (6 / 5)) 1 20).2) 0 - target_f) ^ 2 ∧
    argmaxIdx (compute_impedance_curve K false (buildCandidate profile radii)
        (target_f * (4 / 5), target_f * (6 / 5)) 1 20).2 <
      (compute_impedance_curve K false (buildCandidate profile radii)
        (target_f * (4 / 5), target_f * (6 / 5)) 1 20).2.length ∧
    0 < (compute_impedance_curve K false (buildCandidate profile radii)
        (target_f * (4 / 5), target_f * (6 / 5)) 1 20).2.length := by
  have hc := compute_impedance_curve_eq K false (buildCandidate profile radii)
    (target_f * (4 / 5), target_f * (6 / 5)) 1 20
  have hlen : (compute_impedance_curve K false (buildCandidate profile radii)
      (target_f * (4 / 5), target_f * (6 / 5)) 1 20).2.length =
      (⌈(target_f * (6 / 5) - target_f * (4 / 5)) / 1⌉).toNat := by
    rw [hc]
    simp [arangeQ_length]
  have hpos : 0 < (compute_impedance_curve K false (buildCandidate profile radii)
      (target_f * (4 / 5), target_f * (6 / 5)) 1 20).2.length := by
    rw [hlen]
    exact objective_window_pos target_f ht
  exact ⟨rfl, argmaxIdx_lt _ (List.ne_nil_of_length_pos hpos), hpos⟩

/-- C4 witness: the amended facts at a concrete three-point profile and
target 5/2. -/
theorem objective_function_edge_witness :
    (0 : ℚ) < 5 / 2 ∧
    (objective_function someKernel [(0, 7), (30, 15 / 2), (60, 7)] (5 / 2) [15 / 2] =
      ((compute_impedance_curve someKernel false
          (buildCandidate [(0, 7), (30, 15 / 2), (60, 7)] [15 / 2])
          ((5 / 2 : ℚ) * (4 / 5), (5 / 2 : ℚ) * (6 / 5)) 1 20).1.getD
        (argmaxIdx (compute_impedance_curve someKernel false
          (buildCandidate [(0, 7), (30, 15 / 2), (60, 7)] [15 / 2])
          ((5 / 2 : ℚ) * (4 / 5), (5 / 2 : ℚ) * (6 / 5)) 1 20).2) 0 - 5 / 2) ^ 2 ∧
    argmaxIdx (compute_impedance_curve someKernel false
        (buildCandidate [(0, 7), (30, 15 / 2), (60, 7)] [15 / 2])
        ((5 / 2 : ℚ) * (4 / 5), (5 / 2 : ℚ) * (6 / 5)) 1 20).2 <
      (compute_impedance_curve someKernel false
        (buildCandidate [(0, 7), (30, 15 / 2), (60, 7)] [15 / 2])
        ((5 / 2 : ℚ) * (4 / 5), (5 / 2 : ℚ) * (6 / 5)) 1 20).2.length ∧
    0 < (compute_impedance_curve someKernel false
        (buildCandidate [(0, 7), (30, 15 / 2), (60, 7)] [15 / 2])
        ((5 / 2 : ℚ) * (4 / 5), (5 / 2 : ℚ) * (6 / 5)) 1 20).2.length) :=
  ⟨by norm_num,
    objective_function_edge someKernel [(0, 7), (30, 15 / 2), (60, 7)] (5 / 2) [15 / 2]
      (by norm_num)⟩

/-- `noInteriorMaxB` holds for every one-sample window: a single sample has
no interior index at all. -/
theorem noInteriorMaxB_singleton (z : ℚ) : noInteriorMaxB [z] = true := rfl

/-- `numpy.argmax` of a one-sample array is index 0. -/
theorem argmaxIdx_singleton (z : ℚ) : argmaxIdx [z] = 0 := rfl

/-- The concrete window `[2, 3]` with step 1 is the single sample `[2]`. -/
theorem arangeQ_2_3_1 : arangeQ 2 3 1 = [2] := by
  have h : ⌈((3 : ℚ) - 2) / 1⌉ = 1 := by norm_num
  unfold arangeQ
  rw [h]
  simp [List.range_succ]

/-- The engine on the concrete window `[2, 3]` with step 1 returns the
one-sample spectrum. -/
theorem compute_impedance_2_3_1 (K : NumKernel) (p : List (ℚ × ℚ)) :
    compute_impedance_curve K false p (2, 3) 1 20 = ([2], [zinMag K p 20 2]) := by
  rw [compute_impedance_curve_eq, arangeQ_2_3_1]
  rfl

/-- C4 counterexample: a concrete objective evaluation whose restricted
window `[2, 3]` holds a single sample, hence has no interior maximum; the
code does not return a large sentinel error — it silently selects the edge
sample (index 0 of the one-sample window) and returns the tiny squared error
`1/4`. -/
theorem objective_function_no_sentinel_counterexample :
    noInteriorMaxB (compute_impedance_curve someKernel false
        (buildCandidate [(0, 7), (30, 15 / 2), (60, 7)] [15 / 2]) (2, 3) 1 20).2 = true ∧
    argmaxIdx (compute_impedance_curve someKernel false
        (buildCandidate [(0, 7), (30, 15 / 2), (60, 7)] [15 / 2]) (2, 3) 1 20).2 = 0 ∧
    (compute_impedance_curve someKernel false
        (buildCandidate [(0, 7), (30, 15 / 2), (60, 7)] [15 / 2]) (2, 3) 1 20).2.length = 1 ∧
    objective_function someKernel [(0, 7), (30, 15 / 2), (60, 7)] (5 / 2) [15 / 2] = 1 / 4 ∧
    ¬((10 ^ 6 : ℚ) ≤ 1 / 4) := by
  have h1 : (5 / 2 : ℚ) * (4 / 5) = 2 := by norm_num
  have h2 : (5 / 2 : ℚ) * (6 / 5) = 3 := by norm_num
  have hcurve := compute_impedance_2_3_1 someKernel
    (buildCandidate [(0, 7), (30, 15 / 2), (60, 7)] [15 / 2])
  refine ⟨?_, ?_, ?_, ?_, by norm_num⟩
  · rw [hcurve]
    exact noInteriorMaxB_singleton _
  · rw [hcurve]
    exact argmaxIdx_singleton _
  · rw [hcurve]
    rfl
  · have hobj : objective_function someKernel [(0, 7), (30, 15 / 2), (60, 7)] (5 / 2) [15 / 2] =
        ((compute_impedance_curve someKernel false
            (buildCandidate [(0, 7), (30, 15 / 2), (60, 7)] [15 / 2])
            ((5 / 2 : ℚ) * (4 / 5), (5 / 2 : ℚ) * (6 / 5)) 1 20).1.getD
          (argmaxIdx (compute_impedance_curve someKernel false
            (buildCandidate [(0, 7), (30, 15 / 2), (60, 7)] [15 / 2])
            ((5 / 2 : ℚ) * (4 / 5), (5 / 2 : ℚ) * (6 / 5)) 1 20).2) 0 - 5 / 2) ^ 2 := rfl
    rw [hobj, h1, h2, hcurve, argmaxIdx_singleton]
    norm_num

/-- C1 (amended): `compute_impedance_curve` performs no input validation and
has no typed error path at all: for a malformed profile (or any window) it
proceeds straight to the frequency-domain computation and returns the
parallel pair of grid-length arrays. -/
theorem compute_impedance_no_validation (K : NumKernel) (g : Bool)
    (p : List (ℚ × ℚ)) (fr : ℚ × ℚ) (step temp : ℚ) (h : ¬validProfile p) :
    (compute_impedance_curve K g p fr step temp).1.length =
      (⌈(fr.2 - fr.1) / step⌉).toNat ∧
    (compute_impedance_curve K g p fr step temp).2.length =
      (⌈(fr.2 - fr.1) / step⌉).toNat := by
  rw [compute_impedance_curve_eq]
  exact ⟨arangeQ_length fr.1 fr.2 step, by rw [List.length_map, arangeQ_length]⟩

/-- C1 witness: the amended fact at a concrete malformed (single-point)
profile. -/
theorem compute_impedance_no_validation_witness :
    ¬validProfile [(0, 7)] ∧
    ((compute_impedance_curve someKernel false [(0, 7)] (100, 110) 2 20).1.length =
      (⌈(((100 : ℚ), (110 : ℚ)).2 - ((100 : ℚ), (110 : ℚ)).1) / 2⌉).toNat ∧
    (compute_impedance_curve someKernel false [(0, 7)] (100, 110) 2 20).2.length =
      (⌈(((100 : ℚ), (110 : ℚ)).2 - ((100 : ℚ), (110 : ℚ)).1) / 2⌉).toNat) :=
  ⟨by decide, compute_impedance_no_validation someKernel false [(0, 7)] (100, 110) 2 20
    (by decide)⟩

/-- C1 counterexample: the profile `[(0, 7)]` has a single point, so it is
malformed; the claim says the engine fails with a typed error before any
frequency-domain work and never computes a spectrum for it — but the code
computes and returns a full 5-sample spectrum for the window `[100, 110]`
with step 2. -/
theorem compute_impedance_no_validation_counterexample :
    ¬validProfile [(0, 7)] ∧
    (compute_impedance_curve someKernel false [(0, 7)] (100, 110) 2 20).1.length = 5 ∧
    (compute_impedance_curve someKernel false [(0, 7)] (100, 110) 2 20).2.length = 5 := by
  have hceil : ⌈(((110 : ℚ) - 100)) / 2⌉ = (5 : ℤ) := by norm_num
  refine ⟨by decide, ?_, ?_⟩
  · rw [compute_impedance_curve_eq]
    show (arangeQ 100 110 2).length = 5
    rw [arangeQ_length, hceil]
    rfl
  · rw [compute_impedance_curve_eq]
    show ((arangeQ 100 110 2).map _).length = 5
    rw [List.length_map, arangeQ_length, hceil]
    rfl

/-- `numpy.mean` of a rational list. -/
def meanQ (l : List ℚ) : ℚ := l.sum / (l.length : ℚ)

/-- Walk forward from running index `r` while the next samples equal the
plateau value `v`; returns the index of the last equal sample.  This is the
inner `while x[i_ahead] == x[i]` walk of scipy's `_local_maxima_1d`. -/
def plateauEndAux (v : ℚ) (r : ℕ) : List ℚ → ℕ
  | [] => r
  | y :: t => if y = v then plateauEndAux v (r + 1) t else r

/-- The right edge of the plateau of equal samples starting at index `l`. -/
def plateauEnd (x : List ℚ) (l : ℕ) : ℕ := plateauEndAux (x.getD l 0) l (x.drop (l + 1))

/-- scipy `_local_maxima_1d` peak condition at a plateau's left edge `l`:
the sample before the plateau is strictly smaller, and the sample after the
plateau exists and is strictly smaller. -/
def isPeakStart (x : List ℚ) (l : ℕ) : Bool :=
  decide (0 < l) && decide (l < x.length) &&
  decide (x.getD (l - 1) 0 < x.getD l 0) &&
  decide (plateauEnd x l + 1 < x.length) &&
  decide (x.getD (plateauEnd x l + 1) 0 < x.getD l 0)

/-- scipy `_local_maxima_1d`: the plateau midpoints of all strict (plateau)
local maxima, in ascending index order. -/
def localMaxima (x : List ℚ) : List ℕ :=
  (List.range x.length).filterMap fun l =>
    if isPeakStart x l then some ((l + plateauEnd x l) / 2) else none

/-- scipy `find_peaks` height filtering: keep the peaks whose sample is at
least `height`. -/
def heightFilter (x : List ℚ) (height : ℚ) (peaks : List ℕ) : List ℕ :=
  peaks.filter fun p => decide (height ≤ x.getD p 0)

/-- The current keep-flag of peak position `p` in the selection state. -/
def keepOf (st : List (ℕ × Bool)) (p : ℕ) : Bool :=
  (((st.find? fun e => e.1 == p).map fun e => e.2).getD false)

/-- One removal sweep of scipy `_select_by_peak_distance`: after the peak at
position `q` is confirmed kept, clear the keep-flag of every other peak
closer than `d` samples.  (scipy walks outward from `q` and stops at the
first peak at distance `≥ d`; because the peak positions are sorted this
clears exactly the peaks with distance `< d`.) -/
def purge (d q : ℕ) (st : List (ℕ × Bool)) : List (ℕ × Bool) :=
  st.map fun e => if e.1 ≠ q ∧ Nat.dist e.1 q < d then (e.1, false) else e

/-- The main loop of scipy `_select_by_peak_distance`: process the peaks in
the given priority order; a peak whose flag is still set purges its
neighbourhood, a peak already cleared is skipped. -/
def selectLoop (d : ℕ) : List ℕ → List (ℕ × Bool) → List (ℕ × Bool)
  | [], st => st
  | q :: rest, st => selectLoop d rest (if keepOf st q then purge d q st else st)

/-- The priority preorder on peak positions: compare sample heights. -/
def prioLe (x : List ℚ) (a b : ℕ) : Prop := x.getD a 0 ≤ x.getD b 0

instance prioLe.decidable (x : List ℚ) : DecidableRel (prioLe x) := fun a b =>
  inferInstanceAs (Decidable (x.getD a 0 ≤ x.getD b 0))

instance prioLe.total (x : List ℚ) : IsTotal ℕ (prioLe x) := ⟨fun a b => le_total _ _⟩

instance prioLe.trans (x : List ℚ) : IsTrans ℕ (prioLe x) :=
  ⟨fun _ _ _ hab hbc => le_trans hab hbc⟩

/-- scipy `_select_by_peak_distance`: sort the peak positions by sample
height (argsort ascending), process from the highest priority downwards,
and return the surviving peaks in their original ascending order. -/
def selectByPeakDistance (x : List ℚ) (peaks : List ℕ) (d : ℕ) : List ℕ :=
  let order := (List.insertionSort (prioLe x) peaks).reverse
  let final := selectLoop d order (peaks.map fun p => (p, true))
  (final.filter fun e => e.2).map fun e => e.1

/-- `scipy.signal.find_peaks x` with a minimal `height` and a minimal
`distance`, as called by the source: local maxima, then the height filter,
then distance-based selection. -/
def scipyFindPeaks (x : List ℚ) (height : ℚ) (distance : ℕ) : List ℕ :=
  selectByPeakDistance x (heightFilter x height (localMaxima x)) distance

/-- `PhysicsEngine.find_peaks` (`physics.py` lines 144-154): delegates to
`scipy.signal.find_peaks` with `height = mean(impedance) * 0.5` and
`distance = 10`, then indexes frequencies and magnitudes by the peak
positions.  The `height_threshold` parameter of the method is accepted but
never used by the body. -/
def find_peaks (freqs impedance : List ℚ) (height_threshold : ℚ) : List ℚ × List ℚ :=
  let peaks := scipyFindPeaks impedance (meanQ impedance * (1 / 2)) 10
  (peaks.map fun p => freqs.getD p 0, peaks.map fun p => impedance.getD p 0)

/-- The plateau walk never moves backwards. -/
theorem plateauEndAux_ge (v : ℚ) (t : List ℚ) : ∀ r : ℕ, r ≤ plateauEndAux v r t := by
  induction t with
  | nil => intro r; unfold plateauEndAux; exact le_refl r
  | cons y t ih =>
    intro r
    unfold plateauEndAux
    by_cases hy : y = v
    · rw [if_pos hy]
      exact le_trans (Nat.le_succ r) (ih (r + 1))
    · rw [if_neg hy]

/-- The plateau walk stops within the remaining samples. -/
theorem plateauEndAux_le (v : ℚ) (t : List ℚ) : ∀ r : ℕ, plateauEndAux v r t ≤ r + t.length := by
  induction t with
  | nil => intro r; unfold plateauEndAux; simp
  | cons y t ih =>
    intro r
    unfold plateauEndAux
    by_cases hy : y = v
    · rw [if_pos hy]
      have := ih (r + 1)
      simp only [List.length_cons]
      omega
    · rw [if_neg hy]
      simp

/-- Every sample strictly inside the walked plateau equals the plateau
value. -/
theorem plateauEndAux_mem (v : ℚ) (t : List ℚ) : ∀ r s : ℕ, r < s →
    s ≤ plateauEndAux v r t → t.getD (s - r - 1) 0 = v := by
  induction t with
  | nil =>
    intro r s h1 h2
    unfold plateauEndAux at h2
    omega
  | cons y t ih =>
    intro r s h1 h2
    unfold plateauEndAux at h2
    by_cases hy : y = v
    · rw [if_pos hy] at h2
      by_cases hs : s = r + 1
      · subst hs
        simpa using hy
      · have h1' : r + 1 < s := by omega
        have := ih (r + 1) s h1' h2
        have hidx : s - r - 1 = (s - (r + 1) - 1) + 1 := by omega
        rw [hidx]
        simpa using this
    · rw [if_neg hy] at h2
      omega

/-- The sample right after the walked plateau differs from the plateau
value (when it exists). -/
theorem plateauEndAux_stop (v : ℚ) (t : List ℚ) : ∀ r : ℕ,
    plateauEndAux v r t < r + t.length → t.getD (plateauEndAux v r t - r) 0 ≠ v := by
  induction t with
  | nil =>
    intro r h
    unfold plateauEndAux at h
    simp at h
  | cons y t ih =>
    intro r h
    unfold plateauEndAux at h ⊢
    by_cases hy : y = v
    · rw [if_pos hy] at h ⊢
      have hge : r + 1 ≤ plateauEndAux v (r + 1) t := plateauEndAux_ge v t (r + 1)
      have h' : plateauEndAux v (r + 1) t < (r + 1) + t.length := by
        simp only [List.length_cons] at h
        omega
      have := ih (r + 1) h'
      have hidx : plateauEndAux v (r + 1) t - r = (plateauEndAux v (r + 1) t - (r + 1)) + 1 := by
        omega
      rw [hidx]
      simpa using this
    · rw [if_neg hy] at h ⊢
      simpa using hy

/-- `getD` through `drop`. -/
theorem getD_drop (x : List ℚ) (n i : ℕ) : (x.drop n).getD i 0 = x.getD (n + i) 0 := by
  rw [List.getD_eq_getElem?_getD, List.getD_eq_getElem?_getD, List.getElem?_drop]

/-- The plateau's right edge is at or after its left edge. -/
theorem plateauEnd_ge (x : List ℚ) (l : ℕ) : l ≤ plateauEnd x l :=
  plateauEndAux_ge _ _ l

/-- The plateau's right edge stays inside the array. -/
theorem plateauEnd_lt_len (x : List ℚ) (l : ℕ) (hl : l < x.length) :
    plateauEnd x l < x.length := by
  have h := plateauEndAux_le (x.getD l 0) (x.drop (l + 1)) l
  rw [List.length_drop] at h
  unfold plateauEnd
  omega

/-- All samples on the plateau `[l, plateauEnd x l]` equal the sample at
`l`. -/
theorem plateauEnd_const (x : List ℚ) (l t : ℕ) (h1 : l ≤ t) (h2 : t ≤ plateauEnd x l) :
    x.getD t 0 = x.getD l 0 := by
  rcases Nat.eq_or_lt_of_le h1 with heq | hlt
  · rw [heq]
  · have := plateauEndAux_mem (x.getD l 0) (x.drop (l + 1)) l t hlt h2
    rw [getD_drop] at this
    have hidx : l + 1 + (t - l - 1) = t := by omega
    rwa [hidx] at this

/-- The sample just after the plateau differs from the plateau value. -/
theorem plateauEnd_stop (x : List ℚ) (l : ℕ) (h : plateauEnd x l + 1 < x.length) :
    x.getD (plateauEnd x l + 1) 0 ≠ x.getD l 0 := by
  have hl : l < x.length := by
    by_contra hl
    have hdrop : x.drop (l + 1) = [] := by
      apply List.drop_eq_nil_of_le
      omega
    have : plateauEnd x l = l := by
      unfold plateauEnd
      rw [hdrop]
      rfl
    omega
  have hlen : plateauEnd x l < l + (x.drop (l + 1)).length := by
    rw [List.length_drop]
    omega
  unfold plateauEnd at hlen
  have hstop := plateauEndAux_stop (x.getD l 0) (x.drop (l + 1)) l hlen
  rw [getD_drop] at hstop
  have hge := plateauEnd_ge x l
  unfold plateauEnd at hge ⊢
  have hidx : l + 1 + (plateauEndAux (x.getD l 0) l (x.drop (l + 1)) - l) =
      plateauEndAux (x.getD l 0) l (x.drop (l + 1)) + 1 := by omega
  rwa [hidx] at hstop

/-- Unfolding of `isPeakStart` into its five conditions. -/
theorem isPeakStart_iff (x : List ℚ) (l : ℕ) :
    isPeakStart x l = true ↔
      0 < l ∧ l < x.length ∧ x.getD (l - 1) 0 < x.getD l 0 ∧
      plateauEnd x l + 1 < x.length ∧ x.getD (plateauEnd x l + 1) 0 < x.getD l 0 := by
  unfold isPeakStart
  simp [and_assoc]

/-- Every member of `localMaxima` is the midpoint of a plateau strictly
above its two flanking samples: the declarative strict-local-maximum
property (in the plateau sense). -/
theorem localMaxima_spec (x : List ℚ) (m : ℕ) (h : m ∈ localMaxima x) :
    ∃ l r, l ≤ m ∧ m ≤ r ∧ 0 < l ∧ r + 1 < x.length ∧
      x.getD (l - 1) 0 < x.getD m 0 ∧ x.getD (r + 1) 0 < x.getD m 0 ∧
      ∀ t, l ≤ t → t ≤ r → x.getD t 0 = x.getD m 0 := by
  unfold localMaxima at h
  rw [List.mem_filterMap] at h
  obtain ⟨l, _, hsome⟩ := h
  by_cases hp : isPeakStart x l = true
  · rw [if_pos hp] at hsome
    obtain ⟨h0, hl, hleft, hr1, hright⟩ := (isPeakStart_iff x l).mp hp
    have hm : (l + plateauEnd x l) / 2 = m := by injection hsome
    have hge := plateauEnd_ge x l
    have hml : l ≤ m := by omega
    have hmr : m ≤ plateauEnd x l := by omega
    have hxm : x.getD m 0 = x.getD l 0 := plateauEnd_const x l m hml hmr
    refine ⟨l, plateauEnd x l, hml, hmr, h0, hr1, ?_, ?_, ?_⟩
    · rwa [hxm]
    · rwa [hxm]
    · intro t ht1 ht2
      rw [hxm]
      exact plateauEnd_const x l t ht1 ht2
  · rw [if_neg hp] at hsome
    exact absurd hsome (by simp)

/-- Two distinct peak-plateau starts are separated by at least the first
plateau plus one descending sample. -/
theorem peakStart_sep (x : List ℚ) (l1 l2 : ℕ) (h1 : isPeakStart x l1 = true)
    (h2 : isPeakStart x l2 = true) (hlt : l1 < l2) : plateauEnd x l1 + 2 ≤ l2 := by
  obtain ⟨h10, h1l, h1left, h1r, h1right⟩ := (isPeakStart_iff x l1).mp h1
  obtain ⟨h20, h2l, h2left, _, _⟩ := (isPeakStart_iff x l2).mp h2
  by_contra hcon
  have hle : l2 ≤ plateauEnd x l1 + 1 := by omega
  rcases Nat.eq_or_lt_of_le hle with heq | hlt2
  · -- l2 = plateauEnd x l1 + 1: its left neighbour is the plateau top,
    -- but the plateau's successor is strictly below the plateau.
    have hl2m1 : x.getD (l2 - 1) 0 = x.getD l1 0 := by
      have : l2 - 1 ≤ plateauEnd x l1 := by omega
      exact plateauEnd_const x l1 (l2 - 1) (by omega) this
    have hl2v : x.getD l2 0 < x.getD l1 0 := by
      rw [heq]
      exact h1right
    rw [hl2m1] at h2left
    exact absurd h2left (not_lt.mpr (le_of_lt hl2v))
  · -- l2 ≤ plateauEnd x l1: both l2 - 1 and l2 are on the plateau, so the
    -- strict ascent into l2 is impossible.
    have ha : x.getD (l2 - 1) 0 = x.getD l1 0 :=
      plateauEnd_const x l1 (l2 - 1) (by omega) (by omega)
    have hb : x.getD l2 0 = x.getD l1 0 :=
      plateauEnd_const x l1 l2 (by omega) (by omega)
    rw [ha, hb] at h2left
    exact lt_irrefl _ h2left

/-- The plateau midpoints of `localMaxima` are strictly increasing. -/
theorem localMaxima_pairwise (x : List ℚ) : List.Pairwise (· < ·) (localMaxima x) := by
  unfold localMaxima
  rw [List.pairwise_filterMap]
  have hbase := List.pairwise_lt_range x.length
  refine hbase.imp ?_
  intro l1 l2 hlt m1 hm1 m2 hm2
  by_cases hp1 : isPeakStart x l1 = true
  · by_cases hp2 : isPeakStart x l2 = true
    · rw [if_pos hp1] at hm1
      rw [if_pos hp2] at hm2
      have he1 : (l1 + plateauEnd x l1) / 2 = m1 := Option.mem_some_iff.mp hm1
      have he2 : (l2 + plateauEnd x l2) / 2 = m2 := Option.mem_some_iff.mp hm2
      have hsep := peakStart_sep x l1 l2 hp1 hp2 hlt
      have hge2 := plateauEnd_ge x l2
      omega
    · rw [if_neg hp2] at hm2
      exact absurd hm2 (Option.not_mem_none m2)
  · rw [if_neg hp1] at hm1
    exact absurd hm1 (Option.not_mem_none m1)

/-- `purge` keeps the peak positions (only flags change). -/
theorem purge_fst (d q : ℕ) (st : List (ℕ × Bool)) :
    (purge d q st).map (fun e => e.1) = st.map (fun e => e.1) := by
  unfold purge
  rw [List.map_map]
  apply List.map_congr_left
  intro e _
  simp only [Function.comp]
  by_cases h : e.1 ≠ q ∧ Nat.dist e.1 q < d
  · rw [if_pos h]
  · rw [if_neg h]

/-- The flag of `p` after a purge around `q`. -/
theorem purge_keepOf (d q : ℕ) (st : List (ℕ × Bool)) (p : ℕ) :
    keepOf (purge d q st) p =
      if p ≠ q ∧ Nat.dist p q < d then false else keepOf st p := by
  unfold keepOf purge
  rw [List.find?_map]
  have hpred : ((fun e : ℕ × Bool => e.1 == p) ∘ fun e : ℕ × Bool =>
      if e.1 ≠ q ∧ Nat.dist e.1 q < d then (e.1, false) else e) =
      fun e : ℕ × Bool => e.1 == p := by
    funext e
    simp only [Function.comp]
    by_cases h : e.1 ≠ q ∧ Nat.dist e.1 q < d
    · rw [if_pos h]
    · rw [if_neg h]
  rw [hpred]
  cases hf : st.find? fun e => e.1 == p with
  | none =>
    simp [ite_self]
  | some e =>
    have he1 : e.1 = p := by simpa using List.find?_some hf
    simp only [Option.map_some', Option.getD_some]
    rw [he1]
    by_cases h : p ≠ q ∧ Nat.dist p q < d
    · rw [if_pos h, if_pos h]
    · rw [if_neg h, if_neg h]

/-- One processing step never sets a cleared flag. -/
theorem keepOf_step_mono (d q : ℕ) (st : List (ℕ × Bool)) (p : ℕ)
    (h : keepOf (if keepOf st q then purge d q st else st) p = true) :
    keepOf st p = true := by
  by_cases hq : keepOf st q = true
  · rw [if_pos hq, purge_keepOf] at h
    by_cases hc : p ≠ q ∧ Nat.dist p q < d
    · rw [if_pos hc] at h
      exact absurd h (by simp)
    · rwa [if_neg hc] at h
  · rwa [if_neg hq] at h

/-- The selection loop keeps the peak positions. -/
theorem selectLoop_fst (d : ℕ) (O : List ℕ) :
    ∀ st : List (ℕ × Bool),
      (selectLoop d O st).map (fun e => e.1) = st.map (fun e => e.1) := by
  induction O with
  | nil => intro st; rfl
  | cons q rest ih =>
    intro st
    show (selectLoop d rest _).map _ = _
    rw [ih]
    by_cases hq : keepOf st q = true
    · rw [if_pos hq, purge_fst]
    · rw [if_neg hq]

/-- The selection loop never sets a cleared flag. -/
theorem selectLoop_mono (d : ℕ) (O : List ℕ) :
    ∀ (st : List (ℕ × Bool)) (p : ℕ),
      keepOf (selectLoop d O st) p = true → keepOf st p = true := by
  induction O with
  | nil => intro st p h; exact h
  | cons q rest ih =>
    intro st p h
    exact keepOf_step_mono d q st p (ih _ p h)

/-- End-state separation: if every position not scheduled for processing is
already separation-compatible, then any two distinct positions that survive
the loop are at least `d` apart. -/
theorem selectLoop_sep (d : ℕ) (O : List ℕ) :
    ∀ st : List (ℕ × Bool),
      (∀ a, a ∉ O → keepOf st a = true →
        ∀ b, keepOf st b = true → b ≠ a → d ≤ Nat.dist a b) →
      ∀ a, keepOf (selectLoop d O st) a = true →
        ∀ b, keepOf (selectLoop d O st) b = true → b ≠ a → d ≤ Nat.dist a b := by
  induction O with
  | nil =>
    intro st hJ a ha b hb hne
    exact hJ a (List.not_mem_nil a) ha b hb hne
  | cons q rest ih =>
    intro st hJ
    show ∀ a, keepOf (selectLoop d rest _) a = true → _
    apply ih
    intro a ha hka b hkb hne
    by_cases haq : a = q
    · subst haq
      by_cases hkq : keepOf st a = true
      · rw [if_pos hkq, purge_keepOf] at hkb
        by_cases hc : b ≠ a ∧ Nat.dist b a < d
        · rw [if_pos hc] at hkb
          exact absurd hkb (by simp)
        · rw [Nat.dist_comm]
          omega
      · rw [if_neg hkq] at hka
        exact absurd hka hkq
    · have hmem : a ∉ q :: rest := by
        simp only [List.mem_cons, not_or]
        exact ⟨haq, ha⟩
      exact hJ a hmem (keepOf_step_mono d q st a hka) b (keepOf_step_mono d q st b hkb) hne

/-- If the position `pm` is kept and everything still kept is either `pm` or
at distance `≥ d` from it, the rest of the loop keeps `pm`. -/
theorem selectLoop_keeps (d pm : ℕ) (O : List ℕ) :
    ∀ st : List (ℕ × Bool),
      keepOf st pm = true →
      (∀ p, keepOf st p = true → p = pm ∨ d ≤ Nat.dist p pm) →
      keepOf (selectLoop d O st) pm = true := by
  induction O with
  | nil => intro st h1 _; exact h1
  | cons q rest ih =>
    intro st h1 h2
    show keepOf (selectLoop d rest _) pm = true
    by_cases hkq : keepOf st q = true
    · rw [if_pos hkq]
      rcases h2 q hkq with hq | hq
      · subst hq
        apply ih
        · rw [purge_keepOf]
          rw [if_neg (by simp)]
          exact h1
        · intro p hp
          rw [purge_keepOf] at hp
          by_cases hc : p ≠ q ∧ Nat.dist p q < d
          · rw [if_pos hc] at hp
            exact absurd hp (by simp)
          · omega
      · apply ih
        · rw [purge_keepOf]
          have hc : ¬(pm ≠ q ∧ Nat.dist pm q < d) := by
            have hsym := Nat.dist_comm pm q
            omega
          rw [if_neg hc]
          exact h1
        · intro p hp
          rw [purge_keepOf] at hp
          by_cases hc : p ≠ q ∧ Nat.dist p q < d
          · rw [if_pos hc] at hp
            exact absurd hp (by simp)
          · exact h2 p (by rwa [if_neg hc] at hp)
    · rw [if_neg hkq]
      exact ih st h1 h2

/-- A set flag means the corresponding `(p, true)` entry is present. -/
theorem keepOf_true_mem (st : List (ℕ × Bool)) (p : ℕ) (h : keepOf st p = true) :
    (p, true) ∈ st := by
  unfold keepOf at h
  cases hf : st.find? fun e => e.1 == p with
  | none =>
    rw [hf] at h
    simp at h
  | some e =>
    rw [hf] at h
    simp only [Option.map_some', Option.getD_some] at h
    have he1 : e.1 = p := by simpa using List.find?_some hf
    have hmem := List.mem_of_find?_eq_some hf
    have he : e = (p, true) := by
      cases e
      simp_all
    rwa [he] at hmem

/-- With strictly increasing positions, the flag of `p` is the flag stored
with `p`. -/
theorem keepOf_of_mem (st : List (ℕ × Bool))
    (hd : List.Pairwise (fun a b : ℕ × Bool => a.1 < b.1) st) (p : ℕ) (b : Bool)
    (hm : (p, b) ∈ st) : keepOf st p = b := by
  induction st with
  | nil => exact absurd hm (List.not_mem_nil _)
  | cons e t ih =>
    unfold keepOf
    by_cases hep : (e.1 == p) = true
    · rw [@List.find?_cons_of_pos (ℕ × Bool) (fun e' => e'.1 == p) e t hep]
      simp only [Option.map_some', Option.getD_some]
      have he1 : e.1 = p := by simpa using hep
      rcases List.mem_cons.mp hm with heq | htail
      · rw [← heq]
      · have hlt := (List.pairwise_cons.mp hd).1 (p, b) htail
        rw [he1] at hlt
        exact absurd hlt (lt_irrefl p)
    · rw [@List.find?_cons_of_neg (ℕ × Bool) (fun e' => e'.1 == p) e t hep]
      have ht : (p, b) ∈ t := by
        rcases List.mem_cons.mp hm with heq | htail
        · exfalso
          rw [← heq] at hep
          simp at hep
        · exact htail
      exact ih (List.pairwise_cons.mp hd).2 ht

/-- In a list sorted by sample height, every element's height is at most the
last element's height. -/
theorem sorted_le_getLast (x : List ℚ) (s : List ℕ)
    (hs : List.Sorted (prioLe x) s) (hne : s ≠ []) :
    ∀ p ∈ s, x.getD p 0 ≤ x.getD (s.getLast hne) 0 := by
  induction s with
  | nil => simp
  | cons a t ih =>
    intro p hp
    cases t with
    | nil =>
      simp only [List.mem_singleton] at hp
      subst hp
      exact le_refl _
    | cons b t' =>
      have hne' : b :: t' ≠ [] := by simp
      rw [List.getLast_cons hne']
      rcases List.mem_cons.mp hp with heq | htail
      · subst heq
        have := (List.sorted_cons.mp hs).1 ((b :: t').getLast hne') (List.getLast_mem hne')
        exact this
      · exact ih (List.sorted_cons.mp hs).2 hne' p htail

/-- Behaviour of scipy's distance selection on a sorted list of candidate
positions: the result is a subset of the candidates, still in ascending
order, pairwise at least `d` apart, and it contains a candidate of maximal
sample height whenever there are candidates at all. -/
theorem selectByPeakDistance_spec (x : List ℚ) (peaks : List ℕ) (d : ℕ)
    (hpw : List.Pairwise (· < ·) peaks) :
    (∀ p ∈ selectByPeakDistance x peaks d, p ∈ peaks) ∧
    List.Pairwise (· < ·) (selectByPeakDistance x peaks d) ∧
    (∀ p ∈ selectByPeakDistance x peaks d, ∀ q ∈ selectByPeakDistance x peaks d,
      p ≠ q → d ≤ Nat.dist p q) ∧
    (peaks ≠ [] →
      ∃ p ∈ selectByPeakDistance x peaks d, ∀ c ∈ peaks, x.getD c 0 ≤ x.getD p 0) := by
  have hres : selectByPeakDistance x peaks d =
      ((selectLoop d ((List.insertionSort (prioLe x) peaks).reverse)
        (peaks.map fun p => (p, true))).filter fun e => e.2).map fun e => e.1 := rfl
  have hfst : (selectLoop d ((List.insertionSort (prioLe x) peaks).reverse)
      (peaks.map fun p => (p, true))).map (fun e => e.1) = peaks := by
    rw [selectLoop_fst, List.map_map]
    have h1 : List.map ((fun e : ℕ × Bool => e.1) ∘ fun p : ℕ => (p, true)) peaks =
        List.map id peaks := List.map_congr_left fun p _ => rfl
    rw [h1, List.map_id]
  have hpwf : List.Pairwise (fun a b : ℕ × Bool => a.1 < b.1)
      (selectLoop d ((List.insertionSort (prioLe x) peaks).reverse)
        (peaks.map fun p => (p, true))) := by
    have h2 := hpw
    rw [← hfst] at h2
    exact List.pairwise_map.mp h2
  have hmemfin : ∀ p, p ∈ selectByPeakDistance x peaks d →
      (p, true) ∈ selectLoop d ((List.insertionSort (prioLe x) peaks).reverse)
        (peaks.map fun p => (p, true)) := by
    intro p hp
    rw [hres, List.mem_map] at hp
    obtain ⟨e, he, hep⟩ := hp
    rw [List.mem_filter] at he
    have heq : e = (p, true) := by
      cases e
      simp_all
    rw [← heq]
    exact he.1
  have hkeepres : ∀ p, p ∈ selectByPeakDistance x peaks d →
      keepOf (selectLoop d ((List.insertionSort (prioLe x) peaks).reverse)
        (peaks.map fun p => (p, true))) p = true :=
    fun p hp => keepOf_of_mem _ hpwf p true (hmemfin p hp)
  have hsub : ∀ p ∈ selectByPeakDistance x peaks d, p ∈ peaks := by
    intro p hp
    have h1 : p ∈ (selectLoop d ((List.insertionSort (prioLe x) peaks).reverse)
        (peaks.map fun p => (p, true))).map (fun e => e.1) :=
      List.mem_map.mpr ⟨(p, true), hmemfin p hp, rfl⟩
    rwa [hfst] at h1
  have hJ0 : ∀ a, a ∉ (List.insertionSort (prioLe x) peaks).reverse →
      keepOf (peaks.map fun p => (p, true)) a = true →
      ∀ b, keepOf (peaks.map fun p => (p, true)) b = true → b ≠ a → d ≤ Nat.dist a b := by
    intro a ha hka b _ _
    exfalso
    apply ha
    have hmem := keepOf_true_mem _ _ hka
    rw [List.mem_map] at hmem
    obtain ⟨p', hp', heq⟩ := hmem
    have hpa : p' = a := by simpa using heq
    rw [List.mem_reverse]
    exact ((List.perm_insertionSort (prioLe x) peaks).mem_iff).mpr (hpa ▸ hp')
  refine ⟨hsub, ?_, ?_, ?_⟩
  · rw [hres]
    exact List.pairwise_map.mpr (List.Pairwise.sublist (List.filter_sublist _) hpwf)
  · intro p hp q hq hne
    exact selectLoop_sep d ((List.insertionSort (prioLe x) peaks).reverse)
      (peaks.map fun p => (p, true)) hJ0 p (hkeepres p hp) q (hkeepres q hq) hne.symm
  · intro hne
    have hperm := List.perm_insertionSort (prioLe x) peaks
    have hsne : List.insertionSort (prioLe x) peaks ≠ [] := by
      intro hnil
      rw [hnil] at hperm
      exact hne hperm.symm.eq_nil
    cases horder : (List.insertionSort (prioLe x) peaks).reverse with
    | nil => exact absurd (List.reverse_eq_nil_iff.mp horder) hsne
    | cons q O1 =>
      have hq : q = (List.insertionSort (prioLe x) peaks).getLast hsne := by
        have h1 : ((List.insertionSort (prioLe x) peaks).reverse).head? = some q := by
          rw [horder]
          rfl
        rw [List.head?_reverse, List.getLast?_eq_getLast _ hsne] at h1
        exact (Option.some_inj.mp h1).symm
      have hqmem : q ∈ peaks := by
        have hql : q ∈ List.insertionSort (prioLe x) peaks := hq ▸ List.getLast_mem hsne
        exact (hperm.mem_iff).mp hql
      have hst0pw : List.Pairwise (fun a b : ℕ × Bool => a.1 < b.1)
          (peaks.map fun p => (p, true)) := List.pairwise_map.mpr hpw
      have hkq : keepOf (peaks.map fun p => (p, true)) q = true :=
        keepOf_of_mem _ hst0pw q true (List.mem_map.mpr ⟨q, hqmem, rfl⟩)
      have hkfin : keepOf (selectLoop d ((List.insertionSort (prioLe x) peaks).reverse)
          (peaks.map fun p => (p, true))) q = true := by
        rw [horder]
        show keepOf (selectLoop d O1
          (if keepOf (peaks.map fun p => (p, true)) q
            then purge d q (peaks.map fun p => (p, true))
            else peaks.map fun p => (p, true))) q = true
        rw [if_pos hkq]
        apply selectLoop_keeps
        · rw [purge_keepOf, if_neg (by simp)]
          exact hkq
        · intro p hp
          rw [purge_keepOf] at hp
          by_cases hc : p ≠ q ∧ Nat.dist p q < d
          · rw [if_pos hc] at hp
            exact absurd hp (by simp)
          · omega
      refine ⟨q, ?_, ?_⟩
      · rw [hres]
        apply List.mem_map.mpr
        refine ⟨(q, true), ?_, rfl⟩
        rw [List.mem_filter]
        exact ⟨keepOf_true_mem _ _ hkfin, rfl⟩
      · intro c hc
        have hcs : c ∈ List.insertionSort (prioLe x) peaks := (hperm.mem_iff).mpr hc
        have hle := sorted_le_getLast x _ (List.sorted_insertionSort (prioLe x) peaks)
          hsne c hcs
        rw [hq]
        exact hle

/-- C3 (amended): `find_peaks` ignores its `height_threshold` argument and
returns the scipy peaks computed with the hardcoded height threshold
`mean(magnitude) × 0.5` and the hardcoded minimum separation of 10 samples:
the returned peak indices are in strictly ascending order; each is the
midpoint of a plateau strictly above both flanking samples (a strict local
maximum, in the plateau sense) with magnitude at least `mean × 0.5`; any two
are at least 10 samples apart; and whenever any candidate survives the
height filter, a tallest candidate is among the returned peaks (scipy keeps
the tallest candidate of each separation window, not the first-found). -/
theorem find_peaks_spec (freqs z : List ℚ) (h1 h2 : ℚ) :
    find_peaks freqs z h1 = find_peaks freqs z h2 ∧
    find_peaks freqs z h1 =
      ((scipyFindPeaks z (meanQ z * (1 / 2)) 10).map fun p => freqs.getD p 0,
       (scipyFindPeaks z (meanQ z * (1 / 2)) 10).map fun p => z.getD p 0) ∧
    List.Pairwise (· < ·) (scipyFindPeaks z (meanQ z * (1 / 2)) 10) ∧
    (∀ p ∈ scipyFindPeaks z (meanQ z * (1 / 2)) 10,
      meanQ z * (1 / 2) ≤ z.getD p 0 ∧
      ∃ l r, l ≤ p ∧ p ≤ r ∧ 0 < l ∧ r + 1 < z.length ∧
        z.getD (l - 1) 0 < z.getD p 0 ∧ z.getD (r + 1) 0 < z.getD p 0 ∧
        ∀ t, l ≤ t → t ≤ r → z.getD t 0 = z.getD p 0) ∧
    (∀ p ∈ scipyFindPeaks z (meanQ z * (1 / 2)) 10,
      ∀ q ∈ scipyFindPeaks z (meanQ z * (1 / 2)) 10, p ≠ q → 10 ≤ Nat.dist p q) ∧
    (heightFilter z (meanQ z * (1 / 2)) (localMaxima z) ≠ [] →
      ∃ p ∈ scipyFindPeaks z (meanQ z * (1 / 2)) 10,
        ∀ c ∈ heightFilter z (meanQ z * (1 / 2)) (localMaxima z),
          z.getD c 0 ≤ z.getD p 0) := by
  have hcpw : List.Pairwise (· < ·)
      (heightFilter z (meanQ z * (1 / 2)) (localMaxima z)) :=
    List.Pairwise.sublist (List.filter_sublist _) (localMaxima_pairwise z)
  obtain ⟨hsub, hpr, hsep, htall⟩ :=
    selectByPeakDistance_spec z (heightFilter z (meanQ z * (1 / 2)) (localMaxima z)) 10 hcpw
  refine ⟨rfl, rfl, hpr, ?_, hsep, htall⟩
  intro p hp
  have hpeaks := hsub p hp
  unfold heightFilter at hpeaks
  rw [List.mem_filter] at hpeaks
  refine ⟨by simpa using hpeaks.2, localMaxima_spec z p hpeaks.1⟩

/-- C3 witness: the amended facts instantiated at a concrete spectrum and
two concrete (ignored) threshold arguments. -/
theorem find_peaks_spec_witness :
    find_peaks [0, 1, 2] [1, 3, 1] 7 = find_peaks [0, 1, 2] [1, 3, 1] 9 ∧
    find_peaks [0, 1, 2] [1, 3, 1] 7 =
      ((scipyFindPeaks [1, 3, 1] (meanQ [1, 3, 1] * (1 / 2)) 10).map
        fun p => [(0 : ℚ), 1, 2].getD p 0,
       (scipyFindPeaks [1, 3, 1] (meanQ [1, 3, 1] * (1 / 2)) 10).map
        fun p => [(1 : ℚ), 3, 1].getD p 0) ∧
    List.Pairwise (· < ·) (scipyFindPeaks [1, 3, 1] (meanQ [1, 3, 1] * (1 / 2)) 10) ∧
    (∀ p ∈ scipyFindPeaks [1, 3, 1] (meanQ [1, 3, 1] * (1 / 2)) 10,
      meanQ [1, 3, 1] * (1 / 2) ≤ [(1 : ℚ), 3, 1].getD p 0 ∧
      ∃ l r, l ≤ p ∧ p ≤ r ∧ 0 < l ∧ r + 1 < [(1 : ℚ), 3, 1].length ∧
        [(1 : ℚ), 3, 1].getD (l - 1) 0 < [(1 : ℚ), 3, 1].getD p 0 ∧
        [(1 : ℚ), 3, 1].getD (r + 1) 0 < [(1 : ℚ), 3, 1].getD p 0 ∧
        ∀ t, l ≤ t → t ≤ r → [(1 : ℚ), 3, 1].getD t 0 = [(1 : ℚ), 3, 1].getD p 0) ∧
    (∀ p ∈ scipyFindPeaks [1, 3, 1] (meanQ [1, 3, 1] * (1 / 2)) 10,
      ∀ q ∈ scipyFindPeaks [1, 3, 1] (meanQ [1, 3, 1] * (1 / 2)) 10,
        p ≠ q → 10 ≤ Nat.dist p q) ∧
    (heightFilter [1, 3, 1] (meanQ [1, 3, 1] * (1 / 2)) (localMaxima [1, 3, 1]) ≠ [] →
      ∃ p ∈ scipyFindPeaks [1, 3, 1] (meanQ [1, 3, 1] * (1 / 2)) 10,
        ∀ c ∈ heightFilter [1, 3, 1] (meanQ [1, 3, 1] * (1 / 2)) (localMaxima [1, 3, 1]),
          [(1 : ℚ), 3, 1].getD c 0 ≤ [(1 : ℚ), 3, 1].getD p 0) :=
  find_peaks_spec [0, 1, 2] [1, 3, 1] 7 9

/-- Evaluation: the mean of the concrete spectrum `[1, 3, 1]`. -/
theorem meanQ_1_3_1 : meanQ [1, 3, 1] = 5 / 3 := by
  unfold meanQ
  norm_num

/-- Evaluation: the hardcoded height threshold on `[1, 3, 1]`. -/
theorem thr_1_3_1 : meanQ [1, 3, 1] * (1 / 2) = 5 / 6 := by
  rw [meanQ_1_3_1]
  norm_num

/-- Evaluation: the single plateau local maximum of `[1, 3, 1]`. -/
theorem localMaxima_1_3_1 : localMaxima [1, 3, 1] = [1] := by decide

/-- Evaluation: index 1 survives the hardcoded height filter on
`[1, 3, 1]`. -/
theorem heightFilter_1_3_1 : heightFilter [1, 3, 1] (5 / 6) [1] = [1] := by
  unfold heightFilter
  simp only [List.filter_cons, List.filter_nil, List.getD_cons_succ, List.getD_cons_zero,
    decide_eq_true_eq]
  rw [if_pos (by norm_num)]

/-- Evaluation: distance selection keeps the single candidate of
`[1, 3, 1]`. -/
theorem select_1_3_1 : selectByPeakDistance [1, 3, 1] [1] 10 = [1] := by decide

/-- Evaluation: the scipy pipeline on `[1, 3, 1]` with the hardcoded
parameters returns exactly index 1. -/
theorem scipyFindPeaks_1_3_1 :
    scipyFindPeaks [1, 3, 1] (meanQ [1, 3, 1] * (1 / 2)) 10 = [1] := by
  unfold scipyFindPeaks
  rw [thr_1_3_1, localMaxima_1_3_1, heightFilter_1_3_1, select_1_3_1]

/-- C3 counterexample: with the caller-supplied factor 100 the claim demands
that only samples exceeding `mean × 100 = 500/3` be returned, i.e. no peak at
all for the spectrum `[1, 3, 1]`; the code nevertheless returns the peak at
index 1 (frequency 1, magnitude 3, and `3 < 500/3`), because the supplied
factor is ignored in favour of the hardcoded `0.5`. -/
theorem find_peaks_threshold_counterexample :
    find_peaks [0, 1, 2] [1, 3, 1] 100 = ([1], [3]) ∧
    (3 : ℚ) < meanQ [1, 3, 1] * 100 := by
  constructor
  · unfold find_peaks
    rw [scipyFindPeaks_1_3_1]
    rfl
  · rw [meanQ_1_3_1]
    norm_num

end BarrelLab
